import Mathlib

/-!
Verification of the quantum-volume analysis and composite-analysis components
of a qiskit-experiments snapshot.

The Python sources are shallowly embedded:

* `composite_run_analysis` embeds
  `qiskit_experiments/framework/composite/composite_analysis.py`
  (`CompositeAnalysis._run_analysis`).  The per-child call
  `exp.run_analysis(expdata)` is modelled by the field
  `run_analysis_outcome : Except String Unit` of each component (ok means the
  child analysis succeeded and stored its result in its own container, error
  means it raised).  The dispatcher additionally returns the list of child
  indices on which an analysis invocation happened, in invocation order, so
  that invocation counting and ordering is provable.

* `calc_ideal_heavy_output`, `calc_exp_heavy_output_probability`,
  `calc_z_value`, `calc_confidence_level`, `calc_quantum_volume` and
  `qv_run_analysis` embed
  `qiskit_experiments/library/quantum_volume/qv_analysis.py`.
  Probabilities and counts are exact rationals, the statistics are carried
  out over the reals; `warnings.warn` is modelled by an explicit list of
  diagnostic strings returned next to the result; Python division (which
  raises `ZeroDivisionError` on a zero denominator) is modelled by `Option`.
-/

/-! ## Composite analysis (composite_analysis.py) -/

/-- One child of a composite experiment: the metadata exposed by its data
container (`expdata.experiment_type`, `expdata.experiment_id`,
`expdata.experiment.physical_qubits`) together with the outcome of invoking
the child own analysis, `exp.run_analysis(expdata)`. -/
structure CompositeComponent where
  experiment_type : String
  experiment_id : String
  physical_qubits : List ℕ
  run_analysis_outcome : Except String Unit
  deriving Repr

/-- The experiment-data container passed to `CompositeAnalysis._run_analysis`:
either plain (non-composite) data, or composite data carrying the ordered
children. -/
inductive ExperimentData where
  | leaf : ExperimentData
  | composite (components : List CompositeComponent) : ExperimentData
  deriving Repr

/-- The aggregate record built by `CompositeAnalysis._run_analysis`
(`result_data` dictionary in the source). -/
structure CompositeResultData where
  experiment_types : List String
  experiment_ids : List String
  experiment_qubits : List (List ℕ)
  deriving Repr, DecidableEq

/-- The loop `for i in range(comp_exp.num_experiments)` of the source,
started at index `i`.  The first output component is the log of child
indices whose analysis was invoked, in invocation order; the second is
either the propagated child failure or the three metadata sequences. -/
def run_components : List CompositeComponent → ℕ →
    List ℕ × Except String (List String × List String × List (List ℕ))
  | [], _ => ([], Except.ok ([], [], []))
  | c :: rest, i =>
    match c.run_analysis_outcome with
    | Except.error e => ([i], Except.error e)
    | Except.ok _ =>
      match run_components rest (i + 1) with
      | (log, Except.error e) => (i :: log, Except.error e)
      | (log, Except.ok (ts, ids, qs)) =>
        (i :: log,
         Except.ok (c.experiment_type :: ts, c.experiment_id :: ids,
                    c.physical_qubits :: qs))

/-- `CompositeAnalysis._run_analysis`.  Raises (returns `Except.error`) on
non-composite data; otherwise runs every child analysis in index order and
returns the singleton list of aggregate records paired with `None` figures.
The invocation log is returned alongside. -/
def composite_run_analysis (experiment_data : ExperimentData) :
    List ℕ × Except String (List CompositeResultData × Option Unit) :=
  match experiment_data with
  | ExperimentData.leaf =>
    ([], Except.error "CompositeAnalysis must be run on CompositeExperimentData.")
  | ExperimentData.composite comps =>
    match run_components comps 0 with
    | (log, Except.error e) => (log, Except.error e)
    | (log, Except.ok (ts, ids, qs)) =>
      (log, Except.ok ([⟨ts, ids, qs⟩], none))

lemma range_map_add (n i : ℕ) :
    (List.range (n + 1)).map (· + i) = i :: (List.range n).map (· + (i + 1)) := by
  rw [List.range_succ_eq_map, List.map_cons, List.map_map]
  refine congrArg₂ _ (by omega) ?_
  apply List.map_congr_left
  intro a _
  simp [Function.comp]
  omega

lemma run_components_ok (comps : List CompositeComponent) (i : ℕ)
    (h : ∀ c ∈ comps, c.run_analysis_outcome = Except.ok ()) :
    run_components comps i =
      ((List.range comps.length).map (· + i),
       Except.ok (comps.map (·.experiment_type), comps.map (·.experiment_id),
                  comps.map (·.physical_qubits))) := by
  induction comps generalizing i with
  | nil => simp [run_components]
  | cons c rest ih =>
    have hc : c.run_analysis_outcome = Except.ok () := h c (by simp)
    have hrest : ∀ c ∈ rest, c.run_analysis_outcome = Except.ok () :=
      fun c hmem => h c (by simp [hmem])
    simp only [run_components, hc]
    rw [ih (i + 1) hrest]
    simp only [List.length_cons, range_map_add rest.length i, List.map_cons]

lemma run_components_fail (comps : List CompositeComponent) (s i : ℕ)
    (c : CompositeComponent) (e : String)
    (hi : comps[i]? = some c) (hc : c.run_analysis_outcome = Except.error e)
    (hbefore : ∀ j < i, ∀ c', comps[j]? = some c' →
      c'.run_analysis_outcome = Except.ok ()) :
    run_components comps s = ((List.range (i + 1)).map (· + s), Except.error e) := by
  induction comps generalizing s i with
  | nil => simp at hi
  | cons c₀ rest ih =>
    cases i with
    | zero =>
      simp only [List.getElem?_cons_zero, Option.some_inj] at hi
      subst hi
      simp [run_components, hc, List.range_succ]
    | succ i' =>
      have hc₀ : c₀.run_analysis_outcome = Except.ok () := by
        have := hbefore 0 (Nat.succ_pos i') c₀ (by simp)
        exact this
      have hi' : rest[i']? = some c := by simpa using hi
      have hbefore' : ∀ j < i', ∀ c', rest[j]? = some c' →
          c'.run_analysis_outcome = Except.ok () := by
        intro j hj c' hj'
        exact hbefore (j + 1) (by omega) c' (by simpa using hj')
      simp only [run_components, hc₀]
      rw [ih (s + 1) i' hi' hbefore']
      simp only [range_map_add (i' + 1) s, List.map_cons]

/-! ## Heavy output probability (qv_analysis.py, _calc_exp_heavy_output_probability) -/

/-- `_calc_exp_heavy_output_probability`: the measured `counts` dictionary of
one trial is a key-distinct association list from bitstrings to shot counts.
The sum of the heavy-output counts is divided by the total number of shots;
the Python division raises `ZeroDivisionError` when the total is zero, which
is modelled by `none`. -/
def calc_exp_heavy_output_probability (counts : List (String × ℕ))
    (heavy_outputs : List String) : Option ℚ :=
  let circ_shots := (counts.map Prod.snd).sum
  let heavy_output_counts := (heavy_outputs.map (fun v => ((counts.lookup v).getD 0))).sum
  if circ_shots = 0 then none
  else some ((heavy_output_counts : ℚ) / (circ_shots : ℚ))

lemma sum_lookup_cons_le (k : String) (v : ℕ) (cs : List (String × ℕ))
    (heavy : List String) (hh : heavy.Nodup) :
    (heavy.map (fun s => ((((k, v) :: cs).lookup s).getD 0))).sum ≤
      v + (heavy.map (fun s => ((cs.lookup s).getD 0))).sum := by
  induction heavy with
  | nil => simp
  | cons s t ih =>
    have ht : t.Nodup := hh.of_cons
    by_cases hs : s = k
    · subst hs
      have htail : (t.map (fun u => ((((s, v) :: cs).lookup u).getD 0))).sum =
          (t.map (fun u => ((cs.lookup u).getD 0))).sum := by
        apply congrArg
        apply List.map_congr_left
        intro u hu
        have hus : u ≠ s := by
          intro h
          exact (List.nodup_cons.mp hh).1 (h ▸ hu)
        have hbeq : (u == s) = false := beq_eq_false_iff_ne.mpr hus
        simp [List.lookup_cons, hbeq]
      simp only [List.map_cons, List.sum_cons, List.lookup_cons_self, Option.getD_some, htail]
      omega
    · have hhead : ((((k, v) :: cs).lookup s).getD 0) = ((cs.lookup s).getD 0) := by
        have hbeq : (s == k) = false := beq_eq_false_iff_ne.mpr hs
        simp [List.lookup_cons, hbeq]
      simp only [List.map_cons, List.sum_cons, hhead]
      have := ih ht
      omega

lemma sum_lookup_le_total (counts : List (String × ℕ)) (heavy : List String)
    (hh : heavy.Nodup) :
    (heavy.map (fun s => ((counts.lookup s).getD 0))).sum ≤ (counts.map Prod.snd).sum := by
  induction counts with
  | nil => simp
  | cons p cs ih =>
    obtain ⟨k, v⟩ := p
    calc (heavy.map (fun s => ((((k, v) :: cs).lookup s).getD 0))).sum
        ≤ v + (heavy.map (fun s => ((cs.lookup s).getD 0))).sum :=
          sum_lookup_cons_le k v cs heavy hh
      _ ≤ v + (cs.map Prod.snd).sum := by omega
      _ = (((k, v) :: cs).map Prod.snd).sum := by simp

/-! ## Claim theorems for the composite dispatcher -/

/-- Claim C5: on a composite node whose children all analyze successfully,
the dispatcher processes children in ascending index order `0..n-1`,
invokes each child analysis exactly once (the invocation log is exactly
`range n`), and returns three sequences of length `n` whose `i`-th entries
are the `i`-th child type label, identifier and physical-qubit sequence. -/
theorem composite_analysis_children_in_order (comps : List CompositeComponent)
    (h : ∀ c ∈ comps, c.run_analysis_outcome = Except.ok ()) :
    composite_run_analysis (ExperimentData.composite comps) =
      (List.range comps.length,
       Except.ok ([⟨comps.map (·.experiment_type), comps.map (·.experiment_id),
                    comps.map (·.physical_qubits)⟩], none)) ∧
    (comps.map (·.experiment_type)).length = comps.length ∧
    (comps.map (·.experiment_id)).length = comps.length ∧
    (comps.map (·.physical_qubits)).length = comps.length := by
  have hrc := run_components_ok comps 0 h
  refine ⟨?_, by simp, by simp, by simp⟩
  simp only [composite_run_analysis, hrc]
  simp

/-- Witness for C5 at the three-child example from the specification. -/
theorem composite_analysis_children_in_order_witness :
    composite_run_analysis (ExperimentData.composite
      [⟨"A", "id1", [0], Except.ok ()⟩, ⟨"B", "id2", [1], Except.ok ()⟩,
       ⟨"C", "id3", [2, 3], Except.ok ()⟩]) =
      ([0, 1, 2],
       Except.ok ([⟨["A", "B", "C"], ["id1", "id2", "id3"], [[0], [1], [2, 3]]⟩],
                  none)) := by
  have h := composite_analysis_children_in_order
    [⟨"A", "id1", [0], Except.ok ()⟩, ⟨"B", "id2", [1], Except.ok ()⟩,
     ⟨"C", "id3", [2, 3], Except.ok ()⟩]
    (by intro c hc; simp at hc; rcases hc with rfl | rfl | rfl <;> rfl)
  simpa [List.range_succ] using h.1

/-- Claim C6: invoking the composite dispatcher on non-composite (leaf) data
fails immediately with the invalid-operation error: no child analysis is
invoked (empty invocation log) and no aggregate output is built. -/
theorem composite_analysis_leaf_error :
    composite_run_analysis ExperimentData.leaf =
      ([], Except.error "CompositeAnalysis must be run on CompositeExperimentData.") :=
  rfl

/-- Claim C7: whenever the dispatcher succeeds it returns exactly one
aggregate result record, and the figures component is always `none`. -/
theorem composite_analysis_single_result (d : ExperimentData)
    (log : List ℕ) (results : List CompositeResultData) (figs : Option Unit)
    (h : composite_run_analysis d = (log, Except.ok (results, figs))) :
    results.length = 1 ∧ figs = none := by
  cases d with
  | leaf => simp [composite_run_analysis] at h
  | composite comps =>
    simp only [composite_run_analysis] at h
    rcases hrc : run_components comps 0 with ⟨l, res⟩
    rw [hrc] at h
    cases res with
    | error e => simp at h
    | ok v =>
      rcases v with ⟨ts, ids, qs⟩
      simp only [Prod.mk.injEq, Except.ok.injEq] at h
      obtain ⟨-, h2, h3⟩ := h
      subst h2; subst h3
      simp

/-- Witness for C7 at a concrete composite node. -/
theorem composite_analysis_single_result_witness :
    ([(⟨[], [], []⟩ : CompositeResultData)].length = 1) ∧ ((none : Option Unit) = none) :=
  composite_analysis_single_result (ExperimentData.composite []) [] _ _ rfl

/-- Claim C8: if the first failing child analysis is the one at index `i`,
the dispatcher propagates that failure: exactly the children `0..i` have
been invoked (so no child at an index above `i` is analyzed) and no
aggregate record is produced. -/
theorem composite_analysis_child_failure_aborts (comps : List CompositeComponent)
    (i : ℕ) (c : CompositeComponent) (e : String)
    (hi : comps[i]? = some c) (hc : c.run_analysis_outcome = Except.error e)
    (hbefore : ∀ j < i, ∀ c', comps[j]? = some c' →
      c'.run_analysis_outcome = Except.ok ()) :
    composite_run_analysis (ExperimentData.composite comps) =
      (List.range (i + 1), Except.error e) := by
  have hrc := run_components_fail comps 0 i c e hi hc hbefore
  simp only [composite_run_analysis, hrc]
  simp

/-- Witness for C8: the middle child of three fails, so only children 0 and 1
are invoked and the error propagates. -/
theorem composite_analysis_child_failure_aborts_witness :
    composite_run_analysis (ExperimentData.composite
      [⟨"A", "id1", [0], Except.ok ()⟩, ⟨"B", "id2", [1], Except.error "boom"⟩,
       ⟨"C", "id3", [2, 3], Except.ok ()⟩]) =
      ([0, 1], Except.error "boom") := by
  have h := composite_analysis_child_failure_aborts
    [⟨"A", "id1", [0], Except.ok ()⟩, ⟨"B", "id2", [1], Except.error "boom"⟩,
     ⟨"C", "id3", [2, 3], Except.ok ()⟩]
    1 ⟨"B", "id2", [1], Except.error "boom"⟩ "boom" rfl rfl
    (by
      intro j hj c' h'
      have hj0 : j = 0 := by omega
      subst hj0
      simp only [List.getElem?_cons_zero, Option.some_inj] at h'
      subst h'
      rfl)
  simpa [List.range_succ] using h

/-! ## Claim theorem for the heavy output probability -/

/-- Claim C4: the heavy output probability of one trial is the sum of the
counts over the heavy-output bitstrings divided by the total shot count; it
fails (with the Python `ZeroDivisionError`, modelled by `none`) exactly when
the total shot count is zero, and on any key-distinct heavy-output set the
value returned lies in `[0, 1]`. -/
theorem calc_exp_heavy_output_probability_spec (counts : List (String × ℕ))
    (heavy : List String) :
    (calc_exp_heavy_output_probability counts heavy = none ↔
      (counts.map Prod.snd).sum = 0) ∧
    ((counts.map Prod.snd).sum ≠ 0 →
      calc_exp_heavy_output_probability counts heavy =
        some ((((heavy.map (fun v => ((counts.lookup v).getD 0))).sum : ℕ) : ℚ) /
              (((counts.map Prod.snd).sum : ℕ) : ℚ))) ∧
    (heavy.Nodup →
      ∀ q, calc_exp_heavy_output_probability counts heavy = some q →
        0 ≤ q ∧ q ≤ 1) := by
  refine ⟨?_, ?_, ?_⟩
  · by_cases h : (counts.map Prod.snd).sum = 0 <;>
      simp [calc_exp_heavy_output_probability, h]
  · intro h
    simp [calc_exp_heavy_output_probability, h]
  · intro hh q hq
    by_cases h : (counts.map Prod.snd).sum = 0
    · simp [calc_exp_heavy_output_probability, h] at hq
    · simp only [calc_exp_heavy_output_probability, h, if_false, Option.some_inj] at hq
      subst hq
      have hle := sum_lookup_le_total counts heavy hh
      have hpos : (0 : ℚ) < ((counts.map Prod.snd).sum : ℚ) := by
        exact_mod_cast Nat.pos_of_ne_zero h
      constructor
      · positivity
      · rw [div_le_one hpos]
        exact_mod_cast hle

/-- Witness for C4 at a concrete trial. -/
theorem calc_exp_heavy_output_probability_spec_witness :
    calc_exp_heavy_output_probability [("00", 3), ("11", 1)] ["11"] =
      some (1 / 4) ∧ (0 : ℚ) ≤ 1 / 4 ∧ (1 / 4 : ℚ) ≤ 1 := by
  have hspec := calc_exp_heavy_output_probability_spec [("00", 3), ("11", 1)] ["11"]
  have h1 : calc_exp_heavy_output_probability [("00", 3), ("11", 1)] ["11"] =
      some (1 / 4) := by
    rw [hspec.2.1 (by decide)]
    have hl : (List.lookup "11" [("00", 3), ("11", 1)]).getD 0 = 1 := by decide
    simp only [List.map_cons, List.map_nil, List.sum_cons, List.sum_nil, hl]
    norm_num
  have h2 := hspec.2.2 (by decide) (1 / 4) h1
  exact ⟨h1, h2⟩

/-! ## Ideal heavy outputs (qv_analysis.py, _calc_ideal_heavy_output) -/

/-- The Python format string `"{0:0<depth>b}".format(b)`: the binary digits of
`b`, left-padded with zeros to width `depth` (a single digit `0` is produced
for `b = 0` even when `depth = 0`). -/
def format_bitstring (depth b : ℕ) : String :=
  String.mk (List.replicate (depth - (Nat.toDigits 2 b).length) '0' ++ Nat.toDigits 2 b)

/-- `numpy.median` on a one-dimensional vector: sort, then take the middle
element (odd length) or the mean of the two middle elements (even length). -/
def np_median (l : List ℚ) : ℚ :=
  let s := l.insertionSort (· ≤ ·)
  if l.length % 2 = 1 then s.getD (l.length / 2) 0
  else (s.getD (l.length / 2 - 1) 0 + s.getD (l.length / 2) 0) / 2

/-- `_calc_ideal_heavy_output`: index the ideal probabilities by the
formatted bitstrings of `0, ..., 2 ^ depth - 1`, then keep exactly the
bitstrings whose probability is strictly greater than the median of the
probability vector, in index order. -/
def calc_ideal_heavy_output (probabilities_vector : List ℚ) (depth : ℕ) : List String :=
  let all_output_prob_ideal :=
    (List.range (2 ^ depth)).map
      (fun b => (format_bitstring depth b, probabilities_vector.getD b 0))
  let median_probabilities := np_median probabilities_vector
  (all_output_prob_ideal.filter (fun x => median_probabilities < x.2)).map Prod.fst

lemma np_median_replicate (n : ℕ) (c : ℚ) (h : 0 < n) :
    np_median (List.replicate n c) = c := by
  have hperm := List.perm_insertionSort (α := ℚ) (· ≤ ·) (List.replicate n c)
  have hlen : (List.insertionSort (· ≤ ·) (List.replicate n c)).length = n := by
    rw [hperm.length_eq, List.length_replicate]
  have hget : ∀ i, i < n →
      (List.insertionSort (· ≤ ·) (List.replicate n c)).getD i 0 = c := by
    intro i hi
    have hi' : i < (List.insertionSort (· ≤ ·) (List.replicate n c)).length := by omega
    rw [List.getD_eq_getElem?_getD, List.getElem?_eq_getElem hi', Option.getD_some]
    exact List.eq_of_mem_replicate (hperm.subset (List.getElem_mem hi'))
  unfold np_median
  simp only [List.length_replicate]
  by_cases hpar : n % 2 = 1
  · simp only [hpar, if_true]
    exact hget _ (by omega)
  · simp only [hpar, if_false]
    rw [hget _ (by omega), hget _ (by omega)]
    ring

/-- Claim C2: for a probability vector of length `2 ^ depth`, the heavy
output strings are exactly the zero-padded width-`depth` binary strings of
the indices whose probability is strictly greater than the median (ties
excluded), and for the uniform vector the heavy output list is empty. -/
theorem calc_ideal_heavy_output_spec (depth : ℕ) (probs : List ℚ)
    (hlen : probs.length = 2 ^ depth) :
    (∀ s : String, s ∈ calc_ideal_heavy_output probs depth ↔
      ∃ b, b < 2 ^ depth ∧ s = format_bitstring depth b ∧
        np_median probs < probs.getD b 0) ∧
    (probs = List.replicate (2 ^ depth) ((2 ^ depth : ℚ))⁻¹ →
      calc_ideal_heavy_output probs depth = []) := by
  constructor
  · intro s
    simp only [calc_ideal_heavy_output, List.mem_map, List.mem_filter, List.mem_range,
      decide_eq_true_eq]
    constructor
    · rintro ⟨x, ⟨⟨b, hb, rfl⟩, hmed⟩, rfl⟩
      exact ⟨b, hb, rfl, hmed⟩
    · rintro ⟨b, hb, rfl, hmed⟩
      exact ⟨(format_bitstring depth b, probs.getD b 0), ⟨⟨b, hb, rfl⟩, hmed⟩, rfl⟩
  · intro hp
    subst hp
    have hmed := np_median_replicate (2 ^ depth) ((2 ^ depth : ℚ))⁻¹ (by positivity)
    simp only [calc_ideal_heavy_output, hmed, List.map_eq_nil_iff, List.filter_eq_nil_iff]
    rintro x hx
    simp only [List.mem_map, List.mem_range] at hx
    obtain ⟨b, hb, rfl⟩ := hx
    simp [List.getD_eq_getElem?_getD, List.getElem?_replicate, hb]

/-- Witness for C2 at the example from the specification (`depth = 1`,
probabilities `[0.2, 0.8]`, heavy output `{"1"}`). -/
theorem calc_ideal_heavy_output_spec_witness :
    ([1/5, 4/5] : List ℚ).length = 2 ^ 1 ∧
    ("1" ∈ calc_ideal_heavy_output [1/5, 4/5] 1 ↔
      ∃ b, b < 2 ^ 1 ∧ "1" = format_bitstring 1 b ∧
        np_median [1/5, 4/5] < ([1/5, 4/5] : List ℚ).getD b 0) ∧
    calc_ideal_heavy_output [1/5, 4/5] 1 = ["1"] := by
  refine ⟨by decide, (calc_ideal_heavy_output_spec 1 [1/5, 4/5] (by decide)).1 "1", ?_⟩
  have hmed : np_median [1/5, 4/5] = 1/2 := by
    norm_num [np_median, List.insertionSort, List.orderedInsert]
  simp only [calc_ideal_heavy_output, hmed]
  norm_num [List.range_succ, format_bitstring]
  decide

/-! ## Quantum volume statistics (qv_analysis.py)

The per-trial statistics are carried out over the reals.  `math.erf` is the
Gauss error function. -/

/-- The antiderivative of the Gaussian `exp (-t ^ 2)` vanishing at `0`. -/
noncomputable def gauss_integral (x : ℝ) : ℝ :=
  ∫ t in (0:ℝ)..x, Real.exp (-t ^ 2)

/-- The Gauss error function `math.erf`. -/
noncomputable def erf (x : ℝ) : ℝ :=
  2 / Real.sqrt Real.pi * gauss_integral x

/-- `_calc_z_value`.  If `sigma == 0` the source substitutes the epsilon
`1e-10` for sigma and emits a warning before dividing; the emitted warnings
are returned explicitly. -/
noncomputable def calc_z_value (mean sigma : ℝ) : ℝ × List String :=
  if sigma = 0 then
    ((mean - 2 / 3) / 1e-10, ["Standard deviation sigma should not be zero."])
  else
    ((mean - 2 / 3) / sigma, [])

/-- `_calc_confidence_level`: `0.5 * (1 + erf(z_value / 2 ** 0.5))`. -/
noncomputable def calc_confidence_level (z_value : ℝ) : ℝ :=
  0.5 * (1 + erf (z_value / Real.sqrt 2))

/-- The result dictionary returned by `_calc_quantum_volume`. -/
structure QVResult where
  quantum_volume : ℕ
  success : Prop
  confidence : ℝ
  heavy_output_probability : List ℝ
  mean_hop : ℝ
  sigma : ℝ
  depth : ℕ
  trials : ℕ

/-- `_calc_quantum_volume`: mean and binomial standard error of the
per-trial heavy output probabilities, z-value and confidence level, the
two-sided success gate (`mean_hop > threshold` and `trials >= 100`) and the
resulting quantum volume (`2 ** depth` on success, else `1`).  Warnings are
returned next to the result record. -/
noncomputable def calc_quantum_volume (heavy_output_prob_exp : List ℝ)
    (depth trials : ℕ) : QVResult × List String :=
  let mean_hop := heavy_output_prob_exp.sum / heavy_output_prob_exp.length
  let sigma_hop := Real.sqrt (mean_hop * ((1 - mean_hop) / trials))
  let threshold : ℝ := 2 / 3 + 2 * sigma_hop
  let zres := calc_z_value mean_hop sigma_hop
  let confidence_level := calc_confidence_level zres.1
  let trial_warning : List String :=
    if trials < 100 then
      ["Must use at least 100 trials to consider Quantum Volume as successful."]
    else []
  ({ quantum_volume := if threshold < mean_hop ∧ 100 ≤ trials then 2 ^ depth else 1,
     success := threshold < mean_hop ∧ 100 ≤ trials,
     confidence := confidence_level,
     heavy_output_probability := heavy_output_prob_exp,
     mean_hop := mean_hop,
     sigma := sigma_hop,
     depth := depth,
     trials := trials },
   zres.2 ++ trial_warning)

lemma mean_replicate (n : ℕ) (a : ℝ) (hn : n ≠ 0) :
    (List.replicate n a).sum / ((List.replicate n a).length : ℝ) = a := by
  rw [List.sum_replicate, List.length_replicate, nsmul_eq_mul]
  have : (n : ℝ) ≠ 0 := Nat.cast_ne_zero.mpr hn
  field_simp

/-- Claim C1: success holds exactly when `mean_hop` strictly exceeds
`2/3 + 2 * sigma_hop` (with `sigma_hop = sqrt(mean_hop * (1 - mean_hop) /
trials)`) and at the same time `trials >= 100`; the quantum volume is
`2 ^ depth` on success and `1` otherwise.  In particular, with 50 trials of
heavy output probability `0.8` the mean exceeds the recomputed threshold and
still `success` fails and the quantum volume is `1`. -/
theorem calc_quantum_volume_success_iff :
    (∀ (hops : List ℝ) (depth trials : ℕ),
      ((calc_quantum_volume hops depth trials).1.success ↔
        (2 / 3 + 2 * Real.sqrt (hops.sum / hops.length * (1 - hops.sum / hops.length) / trials)
            < hops.sum / hops.length ∧ 100 ≤ trials)) ∧
      ((calc_quantum_volume hops depth trials).1.success →
        (calc_quantum_volume hops depth trials).1.quantum_volume = 2 ^ depth) ∧
      (¬ (calc_quantum_volume hops depth trials).1.success →
        (calc_quantum_volume hops depth trials).1.quantum_volume = 1)) ∧
    (¬ (calc_quantum_volume (List.replicate 50 (0.8 : ℝ)) 2 50).1.success ∧
     (calc_quantum_volume (List.replicate 50 (0.8 : ℝ)) 2 50).1.quantum_volume = 1 ∧
     2 / 3 + 2 * Real.sqrt ((List.replicate 50 (0.8 : ℝ)).sum /
          ((List.replicate 50 (0.8 : ℝ)).length : ℝ) *
          (1 - (List.replicate 50 (0.8 : ℝ)).sum /
            ((List.replicate 50 (0.8 : ℝ)).length : ℝ)) / (50 : ℕ))
        < (List.replicate 50 (0.8 : ℝ)).sum / ((List.replicate 50 (0.8 : ℝ)).length : ℝ)) := by
  have hmain : ∀ (hops : List ℝ) (depth trials : ℕ),
      ((calc_quantum_volume hops depth trials).1.success ↔
        (2 / 3 + 2 * Real.sqrt (hops.sum / hops.length * (1 - hops.sum / hops.length) / trials)
            < hops.sum / hops.length ∧ 100 ≤ trials)) ∧
      ((calc_quantum_volume hops depth trials).1.success →
        (calc_quantum_volume hops depth trials).1.quantum_volume = 2 ^ depth) ∧
      (¬ (calc_quantum_volume hops depth trials).1.success →
        (calc_quantum_volume hops depth trials).1.quantum_volume = 1) := by
    intro hops depth trials
    have harg : hops.sum / hops.length * (1 - hops.sum / hops.length) / (trials : ℝ) =
        hops.sum / hops.length * ((1 - hops.sum / hops.length) / (trials : ℝ)) := by
      ring
    refine ⟨?_, ?_, ?_⟩
    · rw [harg]
      exact Iff.rfl
    · intro h
      simp only [calc_quantum_volume] at h ⊢
      rw [if_pos h]
    · intro h
      simp only [calc_quantum_volume] at h ⊢
      rw [if_neg h]
  refine ⟨hmain, ?_, ?_, ?_⟩
  · intro h
    have h100 := ((hmain (List.replicate 50 (0.8 : ℝ)) 2 50).1.mp h).2
    omega
  · apply (hmain (List.replicate 50 (0.8 : ℝ)) 2 50).2.2
    intro h
    have h100 := ((hmain (List.replicate 50 (0.8 : ℝ)) 2 50).1.mp h).2
    omega
  · have hm := mean_replicate 50 (0.8 : ℝ) (by norm_num)
    rw [hm]
    have hsqrt : Real.sqrt ((0.8 : ℝ) * (1 - 0.8) / (50 : ℕ)) < 1 / 15 := by
      rw [Real.sqrt_lt' (by norm_num : (0 : ℝ) < 1 / 15)]
      push_cast
      norm_num
    have h08 : (0.8 : ℝ) = 2 / 3 + 2 * (1 / 15) := by norm_num
    linarith

/-- Witness for C1 at the 150-trial example from the specification
(`mean_hop = 0.8`, threshold below `0.8`, at least 100 trials, quantum
volume `2 ^ 2 = 4`). -/
theorem calc_quantum_volume_success_iff_witness :
    (calc_quantum_volume (List.replicate 150 (0.8 : ℝ)) 2 150).1.success ∧
    (calc_quantum_volume (List.replicate 150 (0.8 : ℝ)) 2 150).1.quantum_volume = 2 ^ 2 := by
  have h := calc_quantum_volume_success_iff.1 (List.replicate 150 (0.8 : ℝ)) 2 150
  have hm := mean_replicate 150 (0.8 : ℝ) (by norm_num)
  have hsucc : (calc_quantum_volume (List.replicate 150 (0.8 : ℝ)) 2 150).1.success := by
    apply h.1.mpr
    refine ⟨?_, by omega⟩
    rw [hm]
    have hsqrt : Real.sqrt ((0.8 : ℝ) * (1 - 0.8) / (150 : ℕ)) < 1 / 15 := by
      rw [Real.sqrt_lt' (by norm_num : (0 : ℝ) < 1 / 15)]
      push_cast
      norm_num
    have h08 : (0.8 : ℝ) = 2 / 3 + 2 * (1 / 15) := by norm_num
    linarith
  exact ⟨hsucc, h.2.1 hsucc⟩

/-! ## Analytic facts about the error function -/

lemma gauss_cont : Continuous fun t : ℝ => Real.exp (-t ^ 2) :=
  Real.continuous_exp.comp (continuous_pow 2).neg

lemma gauss_intervalIntegrable (a b : ℝ) :
    IntervalIntegrable (fun t : ℝ => Real.exp (-t ^ 2)) MeasureTheory.volume a b :=
  gauss_cont.intervalIntegrable a b

lemma gauss_integral_mono : Monotone gauss_integral := by
  intro x y hxy
  have h1 : gauss_integral y = gauss_integral x + ∫ t in x..y, Real.exp (-t ^ 2) := by
    rw [gauss_integral, gauss_integral,
      intervalIntegral.integral_add_adjacent_intervals (gauss_intervalIntegrable 0 x)
        (gauss_intervalIntegrable x y)]
  have h2 : 0 ≤ ∫ t in x..y, Real.exp (-t ^ 2) :=
    intervalIntegral.integral_nonneg hxy (fun u _ => (Real.exp_pos _).le)
  linarith

lemma gauss_integral_neg (x : ℝ) : gauss_integral (-x) = -gauss_integral x := by
  have h : (∫ t in (0:ℝ)..x, Real.exp (-(-t) ^ 2)) =
      ∫ t in (-x)..(-(0:ℝ)), Real.exp (-t ^ 2) :=
    intervalIntegral.integral_comp_neg (fun u : ℝ => Real.exp (-u ^ 2))
  simp only [neg_sq, neg_zero] at h
  rw [gauss_integral, gauss_integral, intervalIntegral.integral_symm (-x) 0, ← h]

lemma gauss_integral_nonneg (x : ℝ) (hx : 0 ≤ x) : 0 ≤ gauss_integral x :=
  intervalIntegral.integral_nonneg hx (fun u _ => (Real.exp_pos _).le)

lemma gauss_integrableOn_Ioi :
    MeasureTheory.IntegrableOn (fun t : ℝ => Real.exp (-t ^ 2)) (Set.Ioi 0) := by
  have h : MeasureTheory.Integrable fun t : ℝ => Real.exp (-1 * t ^ 2) :=
    integrable_exp_neg_mul_sq one_pos
  simpa using h.integrableOn

lemma gauss_integral_Ioi :
    (∫ t in Set.Ioi (0:ℝ), Real.exp (-t ^ 2)) = Real.sqrt Real.pi / 2 := by
  have h := integral_gaussian_Ioi 1
  simpa using h

lemma gauss_integral_le (x : ℝ) (hx : 0 ≤ x) :
    gauss_integral x ≤ Real.sqrt Real.pi / 2 := by
  rw [gauss_integral, intervalIntegral.integral_of_le hx, ← gauss_integral_Ioi]
  apply MeasureTheory.setIntegral_mono_set gauss_integrableOn_Ioi
  · exact MeasureTheory.ae_of_all _ (fun u => (Real.exp_pos _).le)
  · exact HasSubset.Subset.eventuallyLE Set.Ioc_subset_Ioi_self

lemma abs_gauss_integral_le (x : ℝ) : |gauss_integral x| ≤ Real.sqrt Real.pi / 2 := by
  rcases le_total 0 x with hx | hx
  · rw [abs_of_nonneg (gauss_integral_nonneg x hx)]
    exact gauss_integral_le x hx
  · have hodd := gauss_integral_neg (-x)
    rw [neg_neg] at hodd
    rw [hodd, abs_neg, abs_of_nonneg (gauss_integral_nonneg _ (by linarith))]
    exact gauss_integral_le _ (by linarith)

lemma abs_erf_le_one (x : ℝ) : |erf x| ≤ 1 := by
  have hpi : 0 < Real.sqrt Real.pi := Real.sqrt_pos.mpr Real.pi_pos
  rw [erf, abs_mul, abs_of_nonneg (by positivity : (0:ℝ) ≤ 2 / Real.sqrt Real.pi)]
  calc 2 / Real.sqrt Real.pi * |gauss_integral x|
      ≤ 2 / Real.sqrt Real.pi * (Real.sqrt Real.pi / 2) := by
        exact mul_le_mul_of_nonneg_left (abs_gauss_integral_le x) (by positivity)
    _ = 1 := by field_simp

lemma erf_monotone : Monotone erf := by
  intro x y hxy
  exact mul_le_mul_of_nonneg_left (gauss_integral_mono hxy) (by positivity)

lemma calc_confidence_level_bounds (z : ℝ) :
    0 ≤ calc_confidence_level z ∧ calc_confidence_level z ≤ 1 := by
  have h := abs_erf_le_one (z / Real.sqrt 2)
  rw [abs_le] at h
  unfold calc_confidence_level
  constructor <;> linarith [h.1, h.2]

/-- Claim C3: when the binomial standard error is zero the estimator does not
fault: it divides by the epsilon `1e-10` instead, emits the non-fatal sigma
diagnostic, and still returns the confidence `0.5 * (1 + erf(z / sqrt 2))`,
which lies in `[0, 1]`. -/
theorem calc_quantum_volume_sigma_zero (hops : List ℝ) (depth trials : ℕ)
    (hsigma : Real.sqrt (hops.sum / hops.length *
      ((1 - hops.sum / hops.length) / trials)) = 0) :
    (calc_quantum_volume hops depth trials).1.confidence =
      0.5 * (1 + erf (((hops.sum / hops.length - 2 / 3) / 1e-10) / Real.sqrt 2)) ∧
    "Standard deviation sigma should not be zero." ∈
      (calc_quantum_volume hops depth trials).2 ∧
    0 ≤ (calc_quantum_volume hops depth trials).1.confidence ∧
    (calc_quantum_volume hops depth trials).1.confidence ≤ 1 := by
  have hconf : (calc_quantum_volume hops depth trials).1.confidence =
      calc_confidence_level ((calc_z_value (hops.sum / hops.length)
        (Real.sqrt (hops.sum / hops.length *
          ((1 - hops.sum / hops.length) / trials)))).1) := rfl
  have hz : (calc_z_value (hops.sum / hops.length)
      (Real.sqrt (hops.sum / hops.length * ((1 - hops.sum / hops.length) / trials)))) =
      ((hops.sum / hops.length - 2 / 3) / 1e-10,
       ["Standard deviation sigma should not be zero."]) := by
    rw [hsigma]
    simp [calc_z_value]
  refine ⟨?_, ?_, ?_, ?_⟩
  · rw [hconf, hz]
    rfl
  · have hw : (calc_quantum_volume hops depth trials).2 =
        (calc_z_value (hops.sum / hops.length)
          (Real.sqrt (hops.sum / hops.length *
            ((1 - hops.sum / hops.length) / trials)))).2 ++
        (if trials < 100 then
          ["Must use at least 100 trials to consider Quantum Volume as successful."]
         else []) := rfl
    rw [hw, hz]
    simp
  · rw [hconf]
    exact (calc_confidence_level_bounds _).1
  · rw [hconf]
    exact (calc_confidence_level_bounds _).2

/-- Witness for C3: two trials whose heavy output probability is exactly 1,
so the standard error is zero. -/
theorem calc_quantum_volume_sigma_zero_witness :
    Real.sqrt (([1, 1] : List ℝ).sum / ([1, 1] : List ℝ).length *
      ((1 - ([1, 1] : List ℝ).sum / ([1, 1] : List ℝ).length) / (2:ℕ))) = 0 ∧
    ("Standard deviation sigma should not be zero." ∈
      (calc_quantum_volume [1, 1] 1 2).2 ∧
     0 ≤ (calc_quantum_volume [1, 1] 1 2).1.confidence ∧
     (calc_quantum_volume [1, 1] 1 2).1.confidence ≤ 1) := by
  have hs : Real.sqrt (([1, 1] : List ℝ).sum / ([1, 1] : List ℝ).length *
      ((1 - ([1, 1] : List ℝ).sum / ([1, 1] : List ℝ).length) / (2:ℕ))) = 0 := by
    have : (([1, 1] : List ℝ).sum / ([1, 1] : List ℝ).length *
        ((1 - ([1, 1] : List ℝ).sum / ([1, 1] : List ℝ).length) / (2:ℕ))) = 0 := by
      norm_num
    rw [this, Real.sqrt_zero]
  have h := calc_quantum_volume_sigma_zero [1, 1] 1 2 hs
  exact ⟨hs, h.2.1, h.2.2.1, h.2.2.2⟩

/-! ## A Taylor lower bound for the Gaussian integral at sqrt 2 -/

/-- Partial sum (first `n` terms) of the exponential series. -/
noncomputable def expTaylor (n : ℕ) (x : ℝ) : ℝ :=
  ∑ k ∈ Finset.range n, x ^ k / (k.factorial : ℝ)

lemma expTaylor_at_zero (n : ℕ) : expTaylor (n + 1) 0 = 1 := by
  unfold expTaylor
  rw [Finset.sum_eq_single 0]
  · norm_num
  · intro b _ hb
    rw [zero_pow hb, zero_div]
  · intro h
    exact absurd (Finset.mem_range.mpr (Nat.succ_pos n)) h

lemma hasDerivAt_expTaylor (n : ℕ) (x : ℝ) :
    HasDerivAt (fun y => expTaylor (n + 1) y) (expTaylor n x) x := by
  have h : HasDerivAt (fun y : ℝ => ∑ k ∈ Finset.range (n + 1), y ^ k / (k.factorial : ℝ))
      (∑ k ∈ Finset.range (n + 1), (k * x ^ (k - 1) / (k.factorial : ℝ))) x := by
    apply HasDerivAt.sum
    intro k _
    exact (hasDerivAt_pow k x).div_const (k.factorial : ℝ)
  have heq : (∑ k ∈ Finset.range (n + 1), ((k : ℝ) * x ^ (k - 1) / (k.factorial : ℝ))) =
      expTaylor n x := by
    rw [Finset.sum_range_succ']
    simp only [Nat.cast_zero, zero_mul, zero_div, add_zero]
    unfold expTaylor
    apply Finset.sum_congr rfl
    intro k _
    have hf : (((k + 1).factorial : ℕ) : ℝ) = ((k : ℝ) + 1) * (k.factorial : ℝ) := by
      rw [Nat.factorial_succ]
      push_cast
      ring
    have hfk : ((k.factorial : ℕ) : ℝ) ≠ 0 := Nat.cast_ne_zero.mpr k.factorial_ne_zero
    have hk1 : ((k : ℝ) + 1) ≠ 0 := by positivity
    rw [Nat.add_sub_cancel, hf]
    push_cast
    field_simp
    ring
  rw [← heq]
  exact h

lemma expTaylor_neg_side (n : ℕ) :
    (Odd n → ∀ x : ℝ, x ≤ 0 → expTaylor (n + 1) x ≤ Real.exp x) ∧
    (Even n → ∀ x : ℝ, x ≤ 0 → Real.exp x ≤ expTaylor (n + 1) x) := by
  induction n with
  | zero =>
    constructor
    · intro hodd
      exact absurd hodd (by simp)
    · intro _ x hx
      have h1 : expTaylor 1 x = 1 := by
        unfold expTaylor
        simp
      rw [h1]
      exact Real.exp_le_one_iff.mpr hx
  | succ n ih =>
    have hderiv : ∀ y : ℝ, HasDerivAt (fun z => Real.exp z - expTaylor (n + 2) z)
        (Real.exp y - expTaylor (n + 1) y) y :=
      fun y => (Real.hasDerivAt_exp y).sub (hasDerivAt_expTaylor (n + 1) y)
    have hdiff : Differentiable ℝ (fun z => Real.exp z - expTaylor (n + 2) z) :=
      fun y => (hderiv y).differentiableAt
    have hzero : Real.exp 0 - expTaylor (n + 2) 0 = 0 := by
      rw [Real.exp_zero, expTaylor_at_zero (n + 1)]
      ring
    constructor
    · intro hodd x hx
      have heven : Even n := by
        rcases Nat.even_or_odd n with h | h
        · exact h
        · exfalso
          rw [Nat.odd_iff] at h hodd
          omega
      have hIH := ih.2 heven
      have hanti : AntitoneOn (fun z => Real.exp z - expTaylor (n + 2) z) (Set.Iic 0) := by
        apply antitoneOn_of_deriv_nonpos (convex_Iic 0) hdiff.continuous.continuousOn
          hdiff.differentiableOn
        intro y hy
        rw [(hderiv y).deriv]
        rw [interior_Iic, Set.mem_Iio] at hy
        have := hIH y (le_of_lt hy)
        linarith
      have hle := hanti (Set.mem_Iic.mpr hx) (Set.mem_Iic.mpr le_rfl) hx
      simp only at hle
      rw [hzero] at hle
      have : expTaylor (n + 2) x ≤ Real.exp x := by linarith
      exact this
    · intro heven x hx
      have hodd : Odd n := by
        rcases Nat.even_or_odd n with h | h
        · exfalso
          rw [Nat.even_iff] at h heven
          omega
        · exact h
      have hIH := ih.1 hodd
      have hmono : MonotoneOn (fun z => Real.exp z - expTaylor (n + 2) z) (Set.Iic 0) := by
        apply monotoneOn_of_deriv_nonneg (convex_Iic 0) hdiff.continuous.continuousOn
          hdiff.differentiableOn
        intro y hy
        rw [(hderiv y).deriv]
        rw [interior_Iic, Set.mem_Iio] at hy
        have := hIH y (le_of_lt hy)
        linarith
      have hle := hmono (Set.mem_Iic.mpr hx) (Set.mem_Iic.mpr le_rfl) hx
      simp only at hle
      rw [hzero] at hle
      have : Real.exp x ≤ expTaylor (n + 2) x := by linarith
      exact this

lemma expTaylor_le_exp (n : ℕ) (hodd : Odd n) (x : ℝ) :
    expTaylor (n + 1) x ≤ Real.exp x := by
  rcases le_total 0 x with hx | hx
  · exact Real.sum_le_exp_of_nonneg hx (n + 1)
  · exact (expTaylor_neg_side n).1 hodd x hx

lemma expTaylor_negsq_intervalIntegrable (k : ℕ) (a b : ℝ) :
    IntervalIntegrable (fun t : ℝ => (-t ^ 2) ^ k / (k.factorial : ℝ))
      MeasureTheory.volume a b := by
  apply Continuous.intervalIntegrable
  exact ((continuous_pow 2).neg.pow k).div_const _

lemma integral_expTaylor_sqrt_two :
    (∫ t in (0:ℝ)..Real.sqrt 2, expTaylor 14 (-t ^ 2)) =
      Real.sqrt 2 *
        ∑ k ∈ Finset.range 14, (-1 : ℝ) ^ k * 2 ^ k / ((k.factorial : ℝ) * (2 * k + 1)) := by
  have hterm : ∀ k : ℕ, (∫ t in (0:ℝ)..Real.sqrt 2, (-t ^ 2) ^ k / (k.factorial : ℝ)) =
      (-1 : ℝ) ^ k * 2 ^ k / ((k.factorial : ℝ) * (2 * k + 1)) * Real.sqrt 2 := by
    intro k
    have h1 : (fun t : ℝ => (-t ^ 2) ^ k / (k.factorial : ℝ)) =
        fun t : ℝ => ((-1 : ℝ) ^ k / (k.factorial : ℝ)) * t ^ (2 * k) := by
      funext t
      rw [neg_pow, pow_mul]
      ring
    rw [h1, intervalIntegral.integral_const_mul, integral_pow]
    have h2 : (Real.sqrt 2) ^ (2 * k + 1) = 2 ^ k * Real.sqrt 2 := by
      rw [pow_succ, pow_mul, Real.sq_sqrt (by norm_num : (0:ℝ) ≤ 2)]
    rw [h2]
    have h0 : (0:ℝ) ^ (2 * k + 1) = 0 := zero_pow (by omega)
    rw [h0]
    have hfk : ((k.factorial : ℕ) : ℝ) ≠ 0 := Nat.cast_ne_zero.mpr k.factorial_ne_zero
    have h2k : ((2 * k + 1 : ℕ) : ℝ) ≠ 0 := by positivity
    push_cast
    field_simp
    ring
  have hsum : (fun t : ℝ => expTaylor 14 (-t ^ 2)) =
      fun t : ℝ => ∑ k ∈ Finset.range 14, (-t ^ 2) ^ k / (k.factorial : ℝ) := rfl
  rw [hsum, intervalIntegral.integral_finset_sum
    (fun k _ => expTaylor_negsq_intervalIntegrable k 0 (Real.sqrt 2))]
  rw [Finset.sum_congr rfl (fun k _ => hterm k), ← Finset.sum_mul]
  ring

lemma gauss_integral_sqrt_two_ge :
    Real.sqrt 2 *
        ∑ k ∈ Finset.range 14, (-1 : ℝ) ^ k * 2 ^ k / ((k.factorial : ℝ) * (2 * k + 1)) ≤
      gauss_integral (Real.sqrt 2) := by
  rw [← integral_expTaylor_sqrt_two, gauss_integral]
  apply intervalIntegral.integral_mono_on (Real.sqrt_nonneg 2)
  · apply Continuous.intervalIntegrable
    have : Continuous fun t : ℝ =>
        ∑ k ∈ Finset.range 14, (-t ^ 2) ^ k / (k.factorial : ℝ) := by
      apply continuous_finset_sum
      intro k _
      exact ((continuous_pow 2).neg.pow k).div_const _
    exact this
  · exact gauss_intervalIntegrable 0 (Real.sqrt 2)
  · intro t _
    exact expTaylor_le_exp 13 (by decide) (-t ^ 2)

lemma erf_sqrt_two_lower : (0.954 : ℝ) < erf (Real.sqrt 2) := by
  set S : ℝ :=
    ∑ k ∈ Finset.range 14, (-1 : ℝ) ^ k * 2 ^ k / ((k.factorial : ℝ) * (2 * k + 1)) with hS
  have hSval : S = 127678650064387 / 213458046676875 := by
    rw [hS]
    simp only [Finset.sum_range_succ, Finset.sum_range_zero, Nat.factorial]
    norm_num
  have hpi_pos : (0:ℝ) < Real.pi := Real.pi_pos
  have hsqrtpi : (0:ℝ) < Real.sqrt Real.pi := Real.sqrt_pos.mpr hpi_pos
  have hgauss := gauss_integral_sqrt_two_ge
  have key : (0.954 : ℝ) * Real.sqrt Real.pi < 2 * (Real.sqrt 2 * S) := by
    have hb : (0:ℝ) ≤ 2 * (Real.sqrt 2 * S) := by
      rw [hSval]
      positivity
    apply lt_of_pow_lt_pow_left 2 hb
    have h1 : ((0.954 : ℝ) * Real.sqrt Real.pi) ^ 2 = 0.910116 * Real.pi := by
      rw [mul_pow, Real.sq_sqrt hpi_pos.le]
      norm_num
    have h2 : (2 * (Real.sqrt 2 * S)) ^ 2 = 8 * S ^ 2 := by
      rw [mul_pow, mul_pow, Real.sq_sqrt (by norm_num : (0:ℝ) ≤ 2)]
      ring
    rw [h1, h2, hSval]
    have hpi := Real.pi_lt_d6
    nlinarith [hpi]
  have h3 : (0.954 : ℝ) < 2 * (Real.sqrt 2 * S) / Real.sqrt Real.pi := by
    rw [lt_div_iff hsqrtpi]
    linarith
  calc (0.954 : ℝ) < 2 * (Real.sqrt 2 * S) / Real.sqrt Real.pi := h3
    _ = 2 / Real.sqrt Real.pi * (Real.sqrt 2 * S) := by ring
    _ ≤ 2 / Real.sqrt Real.pi * gauss_integral (Real.sqrt 2) := by
        apply mul_le_mul_of_nonneg_left hgauss (by positivity)
    _ = erf (Real.sqrt 2) := rfl

/-- Claim C9: whenever the estimator reports success, the reported confidence
level exceeds `0.977` (the standard normal distribution function at
`z = 2` is about `0.97725`): the success gate forces `z_value > 2` (also in
the epsilon-substituted degenerate case), and the confidence is monotone in
the z-value. -/
theorem calc_quantum_volume_success_confidence (hops : List ℝ) (depth trials : ℕ)
    (h : (calc_quantum_volume hops depth trials).1.success) :
    (0.977 : ℝ) < (calc_quantum_volume hops depth trials).1.confidence := by
  obtain ⟨hthr, htr⟩ : 2 / 3 + 2 * Real.sqrt (hops.sum / hops.length *
      ((1 - hops.sum / hops.length) / trials)) < hops.sum / hops.length ∧
      100 ≤ trials := h
  have hconf : (calc_quantum_volume hops depth trials).1.confidence =
      calc_confidence_level ((calc_z_value (hops.sum / hops.length)
        (Real.sqrt (hops.sum / hops.length *
          ((1 - hops.sum / hops.length) / trials)))).1) := rfl
  have htrialsR : (100 : ℝ) ≤ (trials : ℝ) := by exact_mod_cast htr
  have hz : 2 < (calc_z_value (hops.sum / hops.length)
      (Real.sqrt (hops.sum / hops.length *
        ((1 - hops.sum / hops.length) / trials)))).1 := by
    by_cases hs : Real.sqrt (hops.sum / hops.length *
        ((1 - hops.sum / hops.length) / trials)) = 0
    · rw [calc_z_value, if_pos hs]
      have hm : 2 / 3 < hops.sum / hops.length := by
        rw [hs] at hthr
        linarith
      have hprod : hops.sum / hops.length * ((1 - hops.sum / hops.length) / trials) ≤ 0 :=
        Real.sqrt_eq_zero'.mp hs
      have hm1 : 1 ≤ hops.sum / hops.length := by
        by_contra hu
        push_neg at hu
        have ht0 : (0 : ℝ) < (trials : ℝ) := by linarith
        have hpos : 0 < hops.sum / hops.length *
            ((1 - hops.sum / hops.length) / trials) :=
          mul_pos (by linarith) (div_pos (by linarith) ht0)
        linarith
      show (2:ℝ) < (hops.sum / hops.length - 2 / 3) / 1e-10
      rw [lt_div_iff (by norm_num : (0:ℝ) < 1e-10)]
      nlinarith
    · have hspos : 0 < Real.sqrt (hops.sum / hops.length *
          ((1 - hops.sum / hops.length) / trials)) :=
        lt_of_le_of_ne (Real.sqrt_nonneg _) (Ne.symm hs)
      rw [calc_z_value, if_neg hs]
      rw [lt_div_iff hspos]
      linarith
  rw [hconf]
  unfold calc_confidence_level
  have hs2 : (0 : ℝ) < Real.sqrt 2 := Real.sqrt_pos.mpr (by norm_num)
  have h22 : Real.sqrt 2 * Real.sqrt 2 = 2 := Real.mul_self_sqrt (by norm_num)
  have hdiv : Real.sqrt 2 ≤ (calc_z_value (hops.sum / hops.length)
      (Real.sqrt (hops.sum / hops.length *
        ((1 - hops.sum / hops.length) / trials)))).1 / Real.sqrt 2 := by
    rw [le_div_iff hs2, h22]
    linarith
  have herf := erf_monotone hdiv
  have hlow := erf_sqrt_two_lower
  linarith

/-- Witness for C9: one hundred trials with heavy output probability 1. -/
theorem calc_quantum_volume_success_confidence_witness :
    (calc_quantum_volume (List.replicate 100 (1 : ℝ)) 2 100).1.success ∧
    (0.977 : ℝ) < (calc_quantum_volume (List.replicate 100 (1 : ℝ)) 2 100).1.confidence := by
  have hm := mean_replicate 100 (1 : ℝ) (by norm_num)
  have hsucc : (calc_quantum_volume (List.replicate 100 (1 : ℝ)) 2 100).1.success := by
    refine ⟨?_, le_refl 100⟩
    rw [hm]
    have harg : (1 : ℝ) * ((1 - 1) / ((100 : ℕ) : ℝ)) = 0 := by norm_num
    rw [harg, Real.sqrt_zero]
    norm_num
  exact ⟨hsucc, calc_quantum_volume_success_confidence _ _ _ hsucc⟩

/-! ## The quantum volume analysis entry point (qv_analysis.py, _run_analysis) -/

/-- One trial record: the measured counts and the `metadata` fields `depth`
and `ideal_probabilities` consumed by `_run_analysis`. -/
structure QVTrialData where
  counts : List (String × ℕ)
  depth : ℕ
  ideal_probabilities : List ℚ

/-- The experiment data consumed by `QuantumVolumeAnalysis._run_analysis`:
the top-level experiment qubit count and the list of trial records. -/
structure QVExperimentData where
  num_qubits : ℕ
  data : List QVTrialData

/-- The body of the per-trial loop of `_run_analysis`: the heavy output set
of the trial (computed from the trial own metadata depth) fed into the heavy
output probability of the trial counts. -/
def trial_heavy_output_probability (t : QVTrialData) : Option ℚ :=
  calc_exp_heavy_output_probability t.counts
    (calc_ideal_heavy_output t.ideal_probabilities t.depth)

/-- The per-trial loop of `_run_analysis`, aborting at the first trial whose
heavy output probability computation faults. -/
def collect_hops : List QVTrialData → Option (List ℚ)
  | [] => some []
  | t :: rest =>
    match trial_heavy_output_probability t, collect_hops rest with
    | some q, some qs => some (q :: qs)
    | _, _ => none

/-- `QuantumVolumeAnalysis._run_analysis` (plotting, which is delegated to an
external collaborator, omitted): the depth passed to the estimator is the
top-level experiment qubit count and the trial count is the number of data
records. -/
noncomputable def qv_run_analysis (experiment_data : QVExperimentData) :
    Option (QVResult × List String) :=
  (collect_hops experiment_data.data).map fun hops =>
    calc_quantum_volume (hops.map (fun q : ℚ => (q : ℝ)))
      experiment_data.num_qubits experiment_data.data.length

lemma collect_hops_congr (l₁ l₂ : List QVTrialData)
    (h : l₁.map trial_heavy_output_probability = l₂.map trial_heavy_output_probability) :
    collect_hops l₁ = collect_hops l₂ := by
  induction l₁ generalizing l₂ with
  | nil =>
    cases l₂ with
    | nil => rfl
    | cons t₂ rest₂ => simp at h
  | cons t₁ rest₁ ih =>
    cases l₂ with
    | nil => simp at h
    | cons t₂ rest₂ =>
      simp only [List.map_cons, List.cons.injEq] at h
      rw [collect_hops, collect_hops, h.1, ih rest₂ h.2]

/-- Claim C10: the depth recorded in the result and the exponent of the
returned quantum volume come from the top-level experiment qubit count, and
a trial metadata depth influences the outcome only through the heavy output
probability of that trial: two experiment datas with the same qubit count
and the same per-trial heavy output probabilities (for example differing in
a trial metadata depth that leaves the heavy output set empty) produce the
same result. -/
theorem qv_run_analysis_depth_from_num_qubits :
    (∀ (ed : QVExperimentData) (r : QVResult) (w : List String),
      qv_run_analysis ed = some (r, w) →
        r.depth = ed.num_qubits ∧
        (r.success → r.quantum_volume = 2 ^ ed.num_qubits) ∧
        (¬ r.success → r.quantum_volume = 1)) ∧
    (∀ ed₁ ed₂ : QVExperimentData, ed₁.num_qubits = ed₂.num_qubits →
      ed₁.data.map trial_heavy_output_probability =
        ed₂.data.map trial_heavy_output_probability →
      qv_run_analysis ed₁ = qv_run_analysis ed₂) := by
  constructor
  · intro ed r w hrun
    rw [qv_run_analysis] at hrun
    rcases hhops : collect_hops ed.data with _ | hops
    · rw [hhops] at hrun
      exact Option.noConfusion hrun
    · rw [hhops] at hrun
      simp only [Option.map_some', Option.some_inj] at hrun
      have hr : r = (calc_quantum_volume (hops.map (fun q : ℚ => (q : ℝ)))
          ed.num_qubits ed.data.length).1 := by
        rw [hrun]
      subst hr
      refine ⟨rfl, ?_, ?_⟩
      · intro hs
        simp only [calc_quantum_volume] at hs ⊢
        rw [if_pos hs]
      · intro hs
        simp only [calc_quantum_volume] at hs ⊢
        rw [if_neg hs]
  · intro ed₁ ed₂ hq hmap
    have hlen : ed₁.data.length = ed₂.data.length := by
      have := congrArg List.length hmap
      simpa using this
    rw [qv_run_analysis, qv_run_analysis, collect_hops_congr ed₁.data ed₂.data hmap,
      hlen, hq]

/-- Witness for C10: two single-trial experiment datas whose trials differ in
the metadata depth (1 with a uniform two-outcome distribution vs 0 with the
point distribution) but have equal heavy output probabilities; the results
agree, and the recorded depth is the qubit count 2 of the experiment. -/
theorem qv_run_analysis_depth_from_num_qubits_witness :
    qv_run_analysis ⟨2, [⟨[("0", 5)], 1, [1/2, 1/2]⟩]⟩ =
      qv_run_analysis ⟨2, [⟨[("0", 5)], 0, [1]⟩]⟩ ∧
    (calc_quantum_volume (([(0 : ℚ)] : List ℚ).map (fun q : ℚ => (q : ℝ))) 2 1).1.depth = 2 := by
  have h₁ : trial_heavy_output_probability ⟨[("0", 5)], 1, [1/2, 1/2]⟩ = some 0 := by
    have hmed : np_median [1/2, 1/2] = 1/2 := by
      norm_num [np_median, List.insertionSort, List.orderedInsert]
    have hheavy : calc_ideal_heavy_output [1/2, 1/2] 1 = [] := by
      simp only [calc_ideal_heavy_output, hmed]
      norm_num [List.range_succ]
    rw [trial_heavy_output_probability]
    simp only [hheavy]
    rw [calc_exp_heavy_output_probability]
    norm_num
  have h₂ : trial_heavy_output_probability ⟨[("0", 5)], 0, [1]⟩ = some 0 := by
    have hmed : np_median [1] = 1 := by
      norm_num [np_median, List.insertionSort, List.orderedInsert]
    have hheavy : calc_ideal_heavy_output [1] 0 = [] := by
      simp only [calc_ideal_heavy_output, hmed]
      norm_num [List.range_succ]
    rw [trial_heavy_output_probability]
    simp only [hheavy]
    rw [calc_exp_heavy_output_probability]
    norm_num
  constructor
  · apply qv_run_analysis_depth_from_num_qubits.2
    · rfl
    · simp only [List.map_cons, List.map_nil, h₁, h₂]
  · have hrun : qv_run_analysis ⟨2, [⟨[("0", 5)], 1, [1/2, 1/2]⟩]⟩ =
        some (calc_quantum_volume (([(0 : ℚ)] : List ℚ).map (fun q : ℚ => (q : ℝ))) 2 1) := by
      rw [qv_run_analysis]
      simp only [collect_hops, h₁]
      rfl
    exact (qv_run_analysis_depth_from_num_qubits.1 _ _ _
      (hrun.trans (congrArg some Prod.mk.eta.symm))).1
